import Mathlib

set_option maxRecDepth 8000

/-!
Shallow embedding of the Rabbit-Company TOTP library (`src/totp.ts`).

Strings of code points are modelled as `List Char`; byte sequences
(`Uint8Array`) as `List Nat` with every element `< 256`.  The WebCrypto
HMAC provider is an external collaborator: it is modelled as a fixed
deterministic function `hmacModel` producing the documented output
length (20/32/64 bytes) for SHA-1/SHA-256/SHA-512.  JavaScript numeric
operations are translated to exact `Nat`/`Int` arithmetic with explicit
`% 2 ^ 64` wrap where `DataView.setBigUint64` wraps.
-/

/-- The three hash algorithms accepted by the library
(`"SHA-1" | "SHA-256" | "SHA-512"`). -/
inductive Alg where
  | sha1
  | sha256
  | sha512
deriving DecidableEq, Repr

/-- HMAC output length in bytes for each algorithm (20/32/64). -/
def Alg.outLen : Alg → Nat
  | .sha1 => 20
  | .sha256 => 32
  | .sha512 => 64

/-- Model of the external HMAC provider (`crypto.subtle.sign("HMAC", ...)`):
a fixed deterministic function producing `alg.outLen` bytes, each `< 256`.
The TOTP core treats the provider as a black box, so any deterministic
function of the key and message with the documented output length is a
faithful stand-in. -/
def hmacModel (alg : Alg) (key msg : List Nat) : List Nat :=
  (List.range alg.outLen).map fun i =>
    (key.foldl (fun a b => (a * 31 + b) % 65521) alg.outLen
      + msg.foldl (fun a b => (a * 33 + b) % 65521) 7 + i * 17) % 256

/-- `toUint8Array`: `view.setBigUint64(0, BigInt(num))` wraps the value
modulo `2 ^ 64` and stores it big-endian in 8 bytes. -/
def toUint8Array (num : Int) : List Nat :=
  let n := (num.emod (2 ^ 64)).toNat
  [n / 2 ^ 56 % 256, n / 2 ^ 48 % 256, n / 2 ^ 40 % 256, n / 2 ^ 32 % 256,
   n / 2 ^ 24 % 256, n / 2 ^ 16 % 256, n / 2 ^ 8 % 256, n % 256]

/-- The RFC 4648 Base32 alphabet `"ABCDEFGHIJKLMNOPQRSTUVWXYZ234567"`. -/
def alphabet : List Char := "ABCDEFGHIJKLMNOPQRSTUVWXYZ234567".toList

/-- Model of `String.prototype.indexOf` over a character list: `some i` when `c`
occurs first at index `i`, `none` when absent (JS returns `-1`). -/
def indexIn (c : Char) : List Char → Option Nat
  | [] => none
  | a :: rest => if a = c then some 0 else (indexIn c rest).map (· + 1)

/-- Removal of the maximal trailing run of `'='`, the JS
`replace` of the anchored padding pattern. -/
def stripTrailingEq (s : List Char) : List Char :=
  (s.reverse.dropWhile (· = '=')).reverse

/-- Uppercasing restricted to ASCII: lowercase letters map to uppercase,
everything else is unchanged.  This is the fragment of
`String.prototype.toUpperCase` that accepted inputs can exercise:
whenever the decoder below returns bytes, every character lies in
`A-Z2-7` or `a-z`, where the full Unicode mapping agrees with this one.
The full mapping is handled parametrically by `base32DecodeUpper`. -/
def jsToUpper (c : Char) : Char :=
  if 'a' ≤ c ∧ c ≤ 'z' then Char.ofNat (c.toNat - 32) else c

/-- The normalisation `base32Decode` applies before the character loop:
strip trailing padding, then uppercase. -/
def normalizeB32 (s : List Char) : List Char :=
  (stripTrailingEq s).map jsToUpper

/-- Binary expansion `val.toString(2).padStart(5, "0")` for `val < 32`: the five bits of
`v`, most significant first. -/
def toBits5 (v : Nat) : List Nat :=
  [v / 16 % 2, v / 8 % 2, v / 4 % 2, v / 2 % 2, v % 2]

/-- The character loop of `base32Decode`: look each character up in the
alphabet, throwing on the first character that is not found, and
concatenate the 5-bit groups. -/
def collectBits : List Char → Except String (List Nat)
  | [] => .ok []
  | c :: rest =>
    match indexIn c alphabet with
    | none => .error "Invalid Base32 character in secret"
    | some v => (collectBits rest).map fun bs => toBits5 v ++ bs

/-- The byte loop of `base32Decode`: take 8 bits at a time from the front
while at least 8 remain, assembling each group most-significant-first;
trailing bits that do not complete a byte are discarded. -/
def bitsToBytes : List Nat → List Nat
  | b0 :: b1 :: b2 :: b3 :: b4 :: b5 :: b6 :: b7 :: rest =>
    (b0 * 128 + b1 * 64 + b2 * 32 + b3 * 16 + b4 * 8 + b5 * 4 + b6 * 2 + b7)
      :: bitsToBytes rest
  | _ => []

/-- Decoder `base32Decode`: strip padding, uppercase, map characters through the
alphabet into a bitstream (failing on a character outside it), emit full
bytes. -/
def base32Decode (input : List Char) : Except String (List Nat) :=
  (collectBits (normalizeB32 input)).map bitsToBytes

/-- Decoder with the uppercasing step abstracted.  ECMAScript
`toUpperCase` is locale-insensitive and rewrites each code point
independently through the external Unicode full uppercase mapping (a
code point may expand, as `'ß'` to `"SS"`), so the source's
normalisation line is `stripTrailingEq` followed by a code-point-wise
`flatMap` of that mapping.  The decoder takes the mapping as a
parameter; the characterization below holds for every choice of
mapping, in particular for the real table, and `base32Decode` is the
instance at the ASCII fragment (`base32Decode_eq_upper`). -/
def base32DecodeUpper (upper : Char → List Char) (input : List Char) :
    Except String (List Nat) :=
  (collectBits ((stripTrailingEq input).flatMap upper)).map bitsToBytes

/-- Secret generator `generateTOTPSecret`: given the requested length and the bytes
supplied by the secure random source (modelled as a function from index
to byte), pick `alphabet[randomValues[i] % 32]` for each position. -/
def generateTOTPSecret (length : Nat) (randomValues : Nat → Nat) : List Char :=
  (List.range length).map fun i => alphabet.getD (randomValues i % 32) 'A'

/-- The decimal digit characters produced by `Number.prototype.toString`. -/
def decDigitChar : Nat → Char
  | 0 => '0' | 1 => '1' | 2 => '2' | 3 => '3' | 4 => '4'
  | 5 => '5' | 6 => '6' | 7 => '7' | 8 => '8' | _ => '9'

/-- Decimal digits of `n`, least significant first; `fuel` bounds the
recursion depth and is never exhausted when `n < fuel`. -/
def decCharsAuxGo : Nat → Nat → List Char
  | 0, _ => []
  | fuel + 1, n =>
    if n < 10 then [decDigitChar n]
    else decDigitChar (n % 10) :: decCharsAuxGo fuel (n / 10)

/-- Decimal digits of `n`, least significant first. -/
def decCharsAux (n : Nat) : List Char := decCharsAuxGo (n + 1) n

/-- Decimal rendering `n.toString()` for a natural number: plain decimal,
no leading zeros (`"0"` for zero). -/
def decChars (n : Nat) : List Char :=
  (decCharsAux n).reverse

/-- Left zero-padding `code.padStart(digits, "0")`. -/
def padStart (s : List Char) (len : Nat) : List Char :=
  List.replicate (len - s.length) '0' ++ s

/-- Dynamic-truncation offset: `hmac[hmac.length - 1] & 0x0f`. -/
def truncOffset (mac : List Nat) : Nat :=
  mac.getD (mac.length - 1) 0 &&& 0x0f

/-- Dynamic-truncation value:
`((hmac[offset] & 0x7f) << 24) | ((hmac[offset+1] & 0xff) << 16) |
((hmac[offset+2] & 0xff) << 8) | (hmac[offset+3] & 0xff)`. -/
def dynamicBinary (mac : List Nat) : Nat :=
  let offset := truncOffset mac
  ((mac.getD offset 0 &&& 0x7f) <<< 24) |||
  ((mac.getD (offset + 1) 0 &&& 0xff) <<< 16) |||
  ((mac.getD (offset + 2) 0 &&& 0xff) <<< 8) |||
  (mac.getD (offset + 3) 0 &&& 0xff)

/-- HOTP core `hotp(key, counter, { digits, algorithm })`: HMAC over the 8-byte
big-endian counter, dynamic truncation, then
`(binary % 10 ** digits).toString().padStart(digits, "0")`. -/
def hotp (key : List Nat) (counter : Int) (digits : Nat) (alg : Alg) :
    List Char :=
  let hmac := hmacModel alg key (toUint8Array counter)
  padStart (decChars (dynamicBinary hmac % 10 ^ digits)) digits

/-- TOTP generation `generateTOTP`: decode the secret, derive
`counter = Math.floor(timestamp / 1000 / timeStep)`, delegate to `hotp`.
The `Int.fdiv` derivation is exact for every nonzero integer `timeStep`;
at `timeStep = 0` the JS code computes an infinite counter and throws a
`RangeError` once `BigInt(Infinity)` is formed, while this total
division yields a value — so completion statements below require
`timeStep ≠ 0`. -/
def generateTOTP (secret : List Char) (timeStep : Int) (digits : Nat)
    (timestamp : Int) (alg : Alg) : Except String (List Char) :=
  (base32Decode secret).map fun decodedSecret =>
    hotp decodedSecret (Int.fdiv timestamp (1000 * timeStep)) digits alg

/-- List of `fuel` consecutive integers starting at `ew`. -/
def examinedWindowsGo : Nat → Int → List Int
  | 0, _ => []
  | fuel + 1, ew => ew :: examinedWindowsGo fuel (ew + 1)

/-- The `errorWindow` values the verification loop visits, in order:
`ew, ew+1, ..., window` (empty when `ew > window`); the loop runs for
exactly `(window + 1 - ew).toNat` iterations. -/
def examinedWindows (ew window : Int) : List Int :=
  examinedWindowsGo ((window + 1 - ew).toNat) ew

/-- Body of the `verifyTOTP` loop, with `fuel` the number of remaining
iterations: compare `hotp(key, counter + errorWindow, ...)` with `token`,
returning `true` on the first exact string match, `false` once the
iterations are exhausted. -/
def verifyLoopGo (key : List Nat) (token : List Char) (digits : Nat)
    (alg : Alg) (counter : Int) : Nat → Int → Bool
  | 0, _ => false
  | fuel + 1, ew =>
    if hotp key (counter + ew) digits alg = token then true
    else verifyLoopGo key token digits alg counter fuel (ew + 1)

/-- The `for` loop of `verifyTOTP`: starting at `errorWindow = ew`, while
`errorWindow <= window` (that is, for `(window + 1 - ew).toNat`
iterations), test each counter in increasing order. -/
def verifyLoop (key : List Nat) (token : List Char) (digits : Nat)
    (alg : Alg) (counter : Int) (ew window : Int) : Bool :=
  verifyLoopGo key token digits alg counter ((window + 1 - ew).toNat) ew

/-- TOTP verification `verifyTOTP`: decode the secret, derive the base
counter, then scan `errorWindow` over `[-window, window]` in increasing
order.  As in `generateTOTP` the counter derivation is exact for
nonzero `timeStep`; at `timeStep = 0` the program only throws if the
loop actually reaches the counter encoding (a negative window never
does). -/
def verifyTOTP (token : List Char) (secret : List Char) (window : Int)
    (timeStep : Int) (digits : Nat) (timestamp : Int) (alg : Alg) :
    Except String Bool :=
  (base32Decode secret).map fun decodedSecret =>
    verifyLoop decodedSecret token digits alg
      (Int.fdiv timestamp (1000 * timeStep)) (-window) window

/-- Byte values of an ASCII string literal (code point = byte for the
ASCII strings appearing in the library). -/
def asciiB (s : String) : List Nat := s.toList.map Char.toNat

/-- The bytes left unescaped by the `application/x-www-form-urlencoded`
serializer used by `URLSearchParams.toString`: ASCII alphanumerics and
`*`, `-`, `.`, `_`. -/
def isFormSafe (b : Nat) : Bool :=
  (48 ≤ b && b ≤ 57) || (65 ≤ b && b ≤ 90) || (97 ≤ b && b ≤ 122) ||
  b == 42 || b == 45 || b == 46 || b == 95

/-- The code points left unescaped by `encodeURIComponent`: ASCII
alphanumerics and `- _ . ! ~ * ' ( )`. -/
def isUriUnreserved (b : Nat) : Bool :=
  (48 ≤ b && b ≤ 57) || (65 ≤ b && b ≤ 90) || (97 ≤ b && b ≤ 122) ||
  b == 45 || b == 95 || b == 46 || b == 33 || b == 126 || b == 42 ||
  b == 39 || b == 40 || b == 41

/-- Uppercase hexadecimal digit byte for `n < 16`. -/
def hexB (n : Nat) : Nat := if n < 10 then 48 + n else 55 + n

/-- Percent-escape `%XX` of one byte, uppercase hex. -/
def pctEncode (b : Nat) : List Nat := [37, hexB (b / 16), hexB (b % 16)]

/-- Model of `encodeURIComponent` over the UTF-8 bytes of the input: unreserved
code points pass through, everything else is percent-escaped. -/
def encodeURIComponent (s : List Nat) : List Nat :=
  s.flatMap fun b => if isUriUnreserved b then [b] else pctEncode b

/-- The `application/x-www-form-urlencoded` serializer applied by
`URLSearchParams.toString` to every name and value: space becomes `+`,
safe bytes pass through, everything else is percent-escaped. -/
def formEncode (s : List Nat) : List Nat :=
  s.flatMap fun b =>
    if b = 32 then [43] else if isFormSafe b then [b] else pctEncode b

/-- The byte rendering of each algorithm name. -/
def algName : Alg → List Nat
  | .sha1 => asciiB "SHA-1"
  | .sha256 => asciiB "SHA-256"
  | .sha512 => asciiB "SHA-512"

/-- The algorithm-name rewrite in the URI builder: the global-flagged
`replace` removes every hyphen byte (45). -/
def stripHyphens (s : List Nat) : List Nat := s.filter fun b => b ≠ 45

/-- Bytes of `n.toString()`. -/
def decBytes (n : Nat) : List Nat := (decChars n).map Char.toNat

/-- Serialization
`new URLSearchParams({secret, issuer, algorithm, digits, period}).toString()`:
the five pairs in insertion order, every value form-urlencoded. -/
def serializeQuery (secret issuer : List Nat) (alg : Alg)
    (digits period : Nat) : List Nat :=
  asciiB "secret=" ++ formEncode secret ++
  asciiB "&issuer=" ++ formEncode issuer ++
  asciiB "&algorithm=" ++ formEncode (stripHyphens (algName alg)) ++
  asciiB "&digits=" ++ formEncode (decBytes digits) ++
  asciiB "&period=" ++ formEncode (decBytes period)

/-- URI builder `generateTOTPURI`: `otpauth://totp/` + `encodeURIComponent` of
`"<issuer>:<accountName>"` + `?` + the serialized query parameters. -/
def generateTOTPURI (accountName issuer secret : List Nat)
    (digits period : Nat) (alg : Alg) : List Nat :=
  asciiB "otpauth://totp/" ++ encodeURIComponent (issuer ++ [58] ++ accountName)
    ++ [63] ++ serializeQuery secret issuer alg digits period

/-- The provisioning-URI format exactly as the spec words it (§6
"Provisioning URI format", §4.4): label percent-encoded as a path
segment, then `secret` emitted **as-is**, `issuer` form-urlencoded with
space as `+`, the hyphen-stripped algorithm name, and the decimal
`digits` and `period` — to be compared with `generateTOTPURI`. -/
def uriBuilderSpec (accountName issuer secret : List Nat)
    (digits period : Nat) (alg : Alg) : List Nat :=
  asciiB "otpauth://totp/" ++ encodeURIComponent (issuer ++ [58] ++ accountName)
    ++ [63] ++
  asciiB "secret=" ++ secret ++
  asciiB "&issuer=" ++ formEncode issuer ++
  asciiB "&algorithm=" ++ stripHyphens (algName alg) ++
  asciiB "&digits=" ++ decBytes digits ++
  asciiB "&period=" ++ decBytes period

/-- Big-endian value of a byte list (most significant byte first). -/
def beVal (bs : List Nat) : Nat := bs.foldl (fun a b => 256 * a + b) 0

instance {e a : Type} [DecidableEq e] [DecidableEq a] :
    DecidableEq (Except e a) := fun x y =>
  match x, y with
  | .ok u, .ok v =>
    if h : u = v then .isTrue (by rw [h])
    else .isFalse (by intro hc; cases hc; exact h rfl)
  | .error u, .error v =>
    if h : u = v then .isTrue (by rw [h])
    else .isFalse (by intro hc; cases hc; exact h rfl)
  | .ok _, .error _ => .isFalse (by intro hc; cases hc)
  | .error _, .ok _ => .isFalse (by intro hc; cases hc)

/-- C10: the message `hotp` hands to the HMAC provider is
`toUint8Array counter`, and for every integer `counter` that value is the
8-byte big-endian encoding of `counter mod 2 ^ 64`: 8 bytes, each below
256, whose big-endian value is exactly `(counter.emod (2 ^ 64)).toNat` —
so negative counters wrap to their two's-complement form instead of
being rejected. -/
theorem toUint8Array_wraps (num : Int) :
    (toUint8Array num).length = 8 ∧
    (∀ b ∈ toUint8Array num, b < 256) ∧
    beVal (toUint8Array num) = (num.emod (2 ^ 64)).toNat := by
  have h0 : 0 ≤ num.emod (2 ^ 64) := Int.emod_nonneg _ (by norm_num)
  have h1 : num.emod (2 ^ 64) < 2 ^ 64 := Int.emod_lt_of_pos _ (by norm_num)
  have hlt : (num.emod (2 ^ 64)).toNat < 2 ^ 64 := by omega
  refine ⟨rfl, ?_, ?_⟩
  · intro b hb
    simp only [toUint8Array, List.mem_cons, List.not_mem_nil, or_false] at hb
    rcases hb with rfl | rfl | rfl | rfl | rfl | rfl | rfl | rfl <;> omega
  · simp only [toUint8Array, beVal, List.foldl]
    omega

/-- C8: for every requested length and every byte sequence supplied by
the random source, `generateTOTPSecret` returns exactly `length`
characters, each drawn from the Base32 alphabet via the modulo-32
mapping. -/
theorem generateTOTPSecret_shape (length : Nat) (randomValues : Nat → Nat) :
    (generateTOTPSecret length randomValues).length = length ∧
    ∀ c ∈ generateTOTPSecret length randomValues, c ∈ alphabet := by
  constructor
  · simp [generateTOTPSecret]
  · intro c hc
    simp only [generateTOTPSecret, List.mem_map, List.mem_range] at hc
    obtain ⟨i, _, rfl⟩ := hc
    have hlt : randomValues i % 32 < alphabet.length := by
      have : alphabet.length = 32 := by decide
      omega
    rw [List.getD_eq_getElem _ _ hlt]
    exact List.getElem_mem _

/-- C2: for every HMAC output of length 20, 32 or 64 whose entries are
bytes, the dynamic-truncation offset is `mac[last] & 0x0f`, the binary
value is the claim's four-byte big-endian read (the explicit `& 0xff`
masks in the code being no-ops on bytes), and that value is (non-negative
and) strictly below `2 ^ 31`. -/
theorem dynamic_truncation_bound (mac : List Nat)
    (_hlen : mac.length = 20 ∨ mac.length = 32 ∨ mac.length = 64)
    (hbytes : ∀ b ∈ mac, b < 256) :
    truncOffset mac = mac.getD (mac.length - 1) 0 &&& 0x0f ∧
    truncOffset mac ≤ 15 ∧
    dynamicBinary mac =
      ((mac.getD (truncOffset mac) 0 &&& 0x7f) <<< 24) |||
      (mac.getD (truncOffset mac + 1) 0 <<< 16) |||
      (mac.getD (truncOffset mac + 2) 0 <<< 8) |||
      mac.getD (truncOffset mac + 3) 0 ∧
    dynamicBinary mac < 2 ^ 31 := by
  have hg : ∀ i, mac.getD i 0 < 256 := by
    intro i
    by_cases h : i < mac.length
    · rw [List.getD_eq_getElem _ _ h]
      exact hbytes _ (List.getElem_mem _)
    · rw [List.getD_eq_default _ _ (by omega)]
      omega
  have hmask : ∀ i, mac.getD i 0 &&& 0xff = mac.getD i 0 := by
    intro i
    rw [show (0xff : Nat) = 2 ^ 8 - 1 from by norm_num]
    exact Nat.and_pow_two_sub_one_of_lt_two_pow (hg i)
  refine ⟨rfl, Nat.and_le_right.trans (by norm_num), ?_, ?_⟩
  · simp only [dynamicBinary]
    rw [hmask, hmask, hmask]
  · simp only [dynamicBinary]
    apply Nat.or_lt_two_pow
    apply Nat.or_lt_two_pow
    apply Nat.or_lt_two_pow
    · have : mac.getD (truncOffset mac) 0 &&& 0x7f ≤ 0x7f := Nat.and_le_right
      calc (mac.getD (truncOffset mac) 0 &&& 0x7f) <<< 24
          = (mac.getD (truncOffset mac) 0 &&& 0x7f) * 2 ^ 24 := Nat.shiftLeft_eq _ _
        _ < 2 ^ 31 := by omega
    · have : mac.getD (truncOffset mac + 1) 0 &&& 0xff ≤ 0xff := Nat.and_le_right
      calc (mac.getD (truncOffset mac + 1) 0 &&& 0xff) <<< 16
          = (mac.getD (truncOffset mac + 1) 0 &&& 0xff) * 2 ^ 16 := Nat.shiftLeft_eq _ _
        _ < 2 ^ 31 := by omega
    · have : mac.getD (truncOffset mac + 2) 0 &&& 0xff ≤ 0xff := Nat.and_le_right
      calc (mac.getD (truncOffset mac + 2) 0 &&& 0xff) <<< 8
          = (mac.getD (truncOffset mac + 2) 0 &&& 0xff) * 2 ^ 8 := Nat.shiftLeft_eq _ _
        _ < 2 ^ 31 := by omega
    · have : mac.getD (truncOffset mac + 3) 0 &&& 0xff ≤ 0xff := Nat.and_le_right
      omega

theorem decDigitChar_mem (d : Nat) :
    decDigitChar d ∈ ['0', '1', '2', '3', '4', '5', '6', '7', '8', '9'] := by
  match d with
  | 0 | 1 | 2 | 3 | 4 | 5 | 6 | 7 | 8 => decide
  | n + 9 =>
    rw [show decDigitChar (n + 9) = '9' from rfl]
    decide

theorem decCharsAuxGo_mem (fuel : Nat) : ∀ n, n < fuel →
    ∀ c ∈ decCharsAuxGo fuel n,
      c ∈ ['0', '1', '2', '3', '4', '5', '6', '7', '8', '9'] := by
  induction fuel with
  | zero => intro n h; omega
  | succ fuel ih =>
    intro n _ c hc
    simp only [decCharsAuxGo] at hc
    by_cases h10 : n < 10
    · rw [if_pos h10] at hc
      simp only [List.mem_singleton] at hc
      exact hc ▸ decDigitChar_mem n
    · rw [if_neg h10] at hc
      rcases List.mem_cons.mp hc with rfl | hc
      · exact decDigitChar_mem _
      · exact ih (n / 10) (by omega) c hc

theorem decCharsAux_mem (n : Nat) :
    ∀ c ∈ decCharsAux n, c ∈ ['0', '1', '2', '3', '4', '5', '6', '7', '8', '9'] :=
  decCharsAuxGo_mem (n + 1) n (by omega)

theorem decCharsAuxGo_length_le (d : Nat) : ∀ (fuel n : Nat), n < fuel →
    n < 10 ^ d → 1 ≤ d → (decCharsAuxGo fuel n).length ≤ d := by
  induction d with
  | zero => omega
  | succ d ih =>
    intro fuel n hn h10d _
    cases fuel with
    | zero => omega
    | succ fuel =>
      simp only [decCharsAuxGo]
      by_cases h10 : n < 10
      · rw [if_pos h10]
        simp
      · rw [if_neg h10]
        have hd : 1 ≤ d := by
          by_contra hd
          have : d = 0 := by omega
          subst this
          simp at h10d
          omega
        have hdiv : n / 10 < 10 ^ d := by
          have := Nat.pow_succ 10 d
          omega
        have := ih fuel (n / 10) (by omega) hdiv hd
        simp only [List.length_cons]
        omega

theorem decCharsAux_length_le (d : Nat) :
    ∀ n, n < 10 ^ d → 1 ≤ d → (decCharsAux n).length ≤ d :=
  fun n h1 h2 => decCharsAuxGo_length_le d (n + 1) n (by omega) h1 h2

theorem mem_digits_isDigit (c : Char)
    (h : c ∈ ['0', '1', '2', '3', '4', '5', '6', '7', '8', '9']) :
    c.isDigit = true := by
  fin_cases h <;> decide

/-- C5: for every key, counter, algorithm and `digits ≥ 1`, the `hotp`
code is the decimal rendering of `binary % 10 ^ digits` left-padded with
zeros: a string of exactly `digits` characters, all decimal digits. -/
theorem hotp_code_shape (key : List Nat) (counter : Int) (digits : Nat)
    (alg : Alg) (hd : 1 ≤ digits) :
    hotp key counter digits alg =
      padStart (decChars (dynamicBinary
        (hmacModel alg key (toUint8Array counter)) % 10 ^ digits)) digits ∧
    (hotp key counter digits alg).length = digits ∧
    ∀ c ∈ hotp key counter digits alg, c.isDigit = true := by
  have hm : dynamicBinary (hmacModel alg key (toUint8Array counter)) % 10 ^ digits
      < 10 ^ digits := Nat.mod_lt _ (Nat.pos_pow_of_pos _ (by norm_num))
  have hlen : (decChars (dynamicBinary
      (hmacModel alg key (toUint8Array counter)) % 10 ^ digits)).length ≤ digits := by
    unfold decChars
    rw [List.length_reverse]
    exact decCharsAux_length_le digits _ hm hd
  refine ⟨rfl, ?_, ?_⟩
  · show (padStart _ _).length = digits
    unfold padStart
    simp only [List.length_append, List.length_replicate]
    omega
  · intro c hc
    simp only [hotp, padStart] at hc
    rcases List.mem_append.mp hc with h | h
    · rw [List.eq_of_mem_replicate h]
      decide
    · unfold decChars at h
      exact mem_digits_isDigit c (decCharsAux_mem _ c (List.mem_reverse.mp h))

theorem mem_examinedWindowsGo (j : Int) : ∀ (fuel : Nat) (ew : Int),
    j ∈ examinedWindowsGo fuel ew ↔ ew ≤ j ∧ j < ew + fuel := by
  intro fuel
  induction fuel with
  | zero =>
    intro ew
    simp only [examinedWindowsGo, List.not_mem_nil, false_iff]
    omega
  | succ fuel ih =>
    intro ew
    simp only [examinedWindowsGo, List.mem_cons, ih (ew + 1)]
    omega

theorem mem_examinedWindows (j : Int) (ew window : Int) :
    j ∈ examinedWindows ew window ↔ ew ≤ j ∧ j ≤ window := by
  unfold examinedWindows
  rw [mem_examinedWindowsGo]
  omega

theorem verifyLoopGo_eq_any (key : List Nat) (token : List Char)
    (digits : Nat) (alg : Alg) (counter : Int) : ∀ (fuel : Nat) (ew : Int),
    verifyLoopGo key token digits alg counter fuel ew =
      (examinedWindowsGo fuel ew).any
        fun j => hotp key (counter + j) digits alg == token := by
  intro fuel
  induction fuel with
  | zero => intro ew; rfl
  | succ fuel ih =>
    intro ew
    simp only [verifyLoopGo, examinedWindowsGo, List.any_cons]
    split
    · rename_i heq
      simp [heq]
    · rename_i hne
      rw [ih (ew + 1), beq_eq_false_iff_ne.mpr hne]
      simp

theorem verifyLoop_eq_any (key : List Nat) (token : List Char) (digits : Nat)
    (alg : Alg) (counter : Int) (ew window : Int) :
    verifyLoop key token digits alg counter ew window =
      (examinedWindows ew window).any
        fun j => hotp key (counter + j) digits alg == token :=
  verifyLoopGo_eq_any key token digits alg counter _ ew

theorem examinedWindowsGo_pairwise : ∀ (fuel : Nat) (ew : Int),
    List.Pairwise (· < ·) (examinedWindowsGo fuel ew) := by
  intro fuel
  induction fuel with
  | zero => intro ew; exact List.Pairwise.nil
  | succ fuel ih =>
    intro ew
    refine List.Pairwise.cons ?_ (ih (ew + 1))
    intro j hj
    have := (mem_examinedWindowsGo j fuel (ew + 1)).mp hj
    omega

/-- C3: `verifyTOTP` derives the base counter
`floor(timestampMillis / 1000 / timeStep)` and returns `true` exactly
when some `errorWindow` in `[-window, window]` makes the `hotp` code an
exact string match for the token; the offsets it examines are precisely
that inclusive interval, visited in strictly increasing order starting
from `-window` (and the loop stops at the first match, `false` only when
no offset matches). -/
theorem verifyTOTP_window_iff (token secret : List Char) (key : List Nat)
    (window timeStep : Int) (digits : Nat) (timestamp : Int) (alg : Alg)
    (hsec : base32Decode secret = .ok key) :
    (verifyTOTP token secret window timeStep digits timestamp alg = .ok true ↔
      ∃ ew : Int, -window ≤ ew ∧ ew ≤ window ∧
        hotp key (Int.fdiv timestamp (1000 * timeStep) + ew) digits alg
          = token) ∧
    (∀ j : Int, j ∈ examinedWindows (-window) window ↔
      -window ≤ j ∧ j ≤ window) ∧
    List.Pairwise (· < ·) (examinedWindows (-window) window) := by
  refine ⟨?_, fun j => mem_examinedWindows j _ _,
    examinedWindowsGo_pairwise _ _⟩
  unfold verifyTOTP
  rw [hsec]
  simp only [Except.map]
  rw [Except.ok.injEq]
  rw [verifyLoop_eq_any]
  rw [List.any_eq_true]
  constructor
  · rintro ⟨j, hj, hbeq⟩
    rw [mem_examinedWindows] at hj
    exact ⟨j, hj.1, hj.2, beq_iff_eq.mp hbeq⟩
  · rintro ⟨j, h1, h2, heq⟩
    exact ⟨j, (mem_examinedWindows j _ _).mpr ⟨h1, h2⟩, beq_iff_eq.mpr heq⟩

/-- C1: round-trip — for every secret that Base32-decodes, every
`timeStep ≥ 1`, `digits ≥ 1`, timestamp, algorithm and `window ≥ 0`,
verifying the freshly generated code with the same options succeeds. -/
theorem totp_roundtrip (secret : List Char) (key : List Nat)
    (timeStep : Int) (digits : Nat) (timestamp : Int) (alg : Alg)
    (window : Int) (code : List Char)
    (hsec : base32Decode secret = .ok key)
    (_hts : 1 ≤ timeStep) (_hd : 1 ≤ digits) (hw : 0 ≤ window)
    (hgen : generateTOTP secret timeStep digits timestamp alg = .ok code) :
    verifyTOTP code secret window timeStep digits timestamp alg = .ok true := by
  unfold generateTOTP at hgen
  rw [hsec] at hgen
  simp only [Except.map, Except.ok.injEq] at hgen
  unfold verifyTOTP
  rw [hsec]
  simp only [Except.map, Except.ok.injEq]
  rw [verifyLoop_eq_any, List.any_eq_true]
  refine ⟨0, (mem_examinedWindows 0 _ _).mpr ⟨by omega, by omega⟩, ?_⟩
  rw [beq_iff_eq, add_zero]
  exact hgen

/-- C9: for every valid secret and token, a negative window makes
`verifyTOTP` return `false` without error, the loop running zero
iterations (the list of examined offsets is empty, so no HMAC is
computed). -/
theorem verifyTOTP_negative_window (token secret : List Char) (key : List Nat)
    (window timeStep : Int) (digits : Nat) (timestamp : Int) (alg : Alg)
    (hsec : base32Decode secret = .ok key) (hw : window < 0) :
    verifyTOTP token secret window timeStep digits timestamp alg = .ok false ∧
    examinedWindows (-window) window = [] := by
  have hempty : examinedWindows (-window) window = [] := by
    unfold examinedWindows
    rw [show (window + 1 - -window).toNat = 0 from by omega]
    rfl
  refine ⟨?_, hempty⟩
  unfold verifyTOTP
  rw [hsec]
  simp only [Except.map, Except.ok.injEq]
  rw [verifyLoop_eq_any, hempty]
  simp

theorem indexIn_eq_none_iff (c : Char) (l : List Char) :
    indexIn c l = none ↔ c ∉ l := by
  induction l with
  | nil => simp [indexIn]
  | cons a rest ih =>
    by_cases h : a = c
    · subst h
      simp [indexIn]
    · rw [show indexIn c (a :: rest) = (indexIn c rest).map (· + 1) from by
        simp only [indexIn]; rw [if_neg h]]
      rw [List.mem_cons]
      constructor
      · intro hm
        rw [Option.map_eq_none'] at hm
        intro hor
        rcases hor with heq | hmem
        · exact h heq.symm
        · exact ih.mp hm hmem
      · intro hnm
        rw [Option.map_eq_none', ih]
        intro hmem
        exact hnm (Or.inr hmem)

theorem collectBits_ok (cs : List Char) (h : ∀ c ∈ cs, c ∈ alphabet) :
    collectBits cs =
      .ok (cs.flatMap fun c => toBits5 ((indexIn c alphabet).getD 0)) := by
  induction cs with
  | nil => simp [collectBits]
  | cons c rest ih =>
    have hc : c ∈ alphabet := h c (List.mem_cons_self c rest)
    obtain ⟨v, hv⟩ : ∃ v, indexIn c alphabet = some v := by
      cases hidx : indexIn c alphabet with
      | none => exact absurd hc ((indexIn_eq_none_iff c alphabet).mp hidx)
      | some v => exact ⟨v, rfl⟩
    unfold collectBits
    rw [hv, ih fun x hx => h x (List.mem_cons_of_mem c hx)]
    simp [Except.map, List.flatMap_cons, hv]

theorem collectBits_error (cs : List Char) (h : ∃ c ∈ cs, c ∉ alphabet) :
    ∃ m, collectBits cs = .error m := by
  induction cs with
  | nil => simp at h
  | cons c rest ih =>
    unfold collectBits
    cases hidx : indexIn c alphabet with
    | none => exact ⟨_, rfl⟩
    | some v =>
      have hc : c ∈ alphabet := by
        by_contra hnc
        rw [← indexIn_eq_none_iff c alphabet] at hnc
        rw [hnc] at hidx
        cases hidx
      obtain ⟨d, hd, hnd⟩ := h
      rcases List.mem_cons.mp hd with rfl | hdr
      · exact absurd hc hnd
      · obtain ⟨m, hm⟩ := ih ⟨d, hdr, hnd⟩
        rw [hm]
        exact ⟨m, rfl⟩

theorem base32Decode_eq_upper (s : List Char) :
    base32Decode s = base32DecodeUpper (fun c => [jsToUpper c]) s := by
  unfold base32Decode base32DecodeUpper normalizeB32
  have h : ∀ l : List Char,
      l.map jsToUpper = l.flatMap fun c => [jsToUpper c] := by
    intro l
    induction l with
    | nil => rfl
    | cons c rest ih => simp [List.flatMap_cons, ih]
  rw [h]

/-- C4: decoding strips trailing `'='` and uppercases the rest (the
external code-point-wise `toUpperCase` mapping being a parameter); for
every such mapping and every input string, the decoder fails with the
invalid-encoding error exactly when some remaining character is outside
the alphabet `A-Z2-7`, and otherwise returns the bytes obtained by
concatenating the characters' 5-bit values and emitting full 8-bit
bytes, discarding leftover bits.  Instantiating `upper` at the real
Unicode table gives the claim for the program. -/
theorem base32DecodeUpper_characterization (upper : Char → List Char)
    (s : List Char) :
    ((∃ m, base32DecodeUpper upper s = .error m) ↔
      ∃ c ∈ (stripTrailingEq s).flatMap upper, c ∉ alphabet) ∧
    ((∀ c ∈ (stripTrailingEq s).flatMap upper, c ∈ alphabet) →
      base32DecodeUpper upper s =
        .ok (bitsToBytes (((stripTrailingEq s).flatMap upper).flatMap
          fun c => toBits5 ((indexIn c alphabet).getD 0)))) := by
  constructor
  · constructor
    · intro ⟨m, hm⟩
      by_contra hall
      push_neg at hall
      have := collectBits_ok ((stripTrailingEq s).flatMap upper) hall
      unfold base32DecodeUpper at hm
      rw [this] at hm
      simp [Except.map] at hm
    · intro hbad
      obtain ⟨m, hm⟩ := collectBits_error ((stripTrailingEq s).flatMap upper)
        hbad
      unfold base32DecodeUpper
      rw [hm]
      exact ⟨m, rfl⟩
  · intro hall
    unfold base32DecodeUpper
    rw [collectBits_ok ((stripTrailingEq s).flatMap upper) hall]
    simp [Except.map]

/-- C7 (amended): the library performs no parameter validation — for
every nonzero integer `timeStep` and every `window`, including negative
ones, `generateTOTP` and `verifyTOTP` complete without error whenever
the secret decodes; no `InvalidParameterError` exists anywhere in the
code, the negative counter simply wrapping through the 64-bit encoding.
The nonzero hypothesis matters: at `timeStep = 0` the program throws an
incidental `RangeError` when `BigInt(Infinity)` is formed — still not an
`InvalidParameterError`, but a failure the total `Int.fdiv` of this
embedding does not reproduce, so that case is excluded. -/
theorem totp_no_parameter_validation (secret : List Char) (key : List Nat)
    (timeStep : Int) (digits : Nat) (timestamp : Int) (alg : Alg)
    (window : Int) (token : List Char)
    (hsec : base32Decode secret = .ok key) (_hts : timeStep ≠ 0) :
    generateTOTP secret timeStep digits timestamp alg =
      .ok (hotp key (Int.fdiv timestamp (1000 * timeStep)) digits alg) ∧
    verifyTOTP token secret window timeStep digits timestamp alg =
      .ok (verifyLoop key token digits alg
        (Int.fdiv timestamp (1000 * timeStep)) (-window) window) := by
  unfold generateTOTP verifyTOTP
  rw [hsec]
  exact ⟨rfl, rfl⟩

/-- C7 counterexample: with the negative `timeStep = -30` the claim
demands an `InvalidParameterError`, but `generateTOTP` succeeds and
returns a code. -/
theorem no_invalid_parameter_error :
    generateTOTP "MFRGGZDF".toList (-30) 6 45000 .sha1 =
      .ok ['3', '9', '8', '0', '1', '0'] := by decide

theorem formEncode_id (s : List Nat) (h : ∀ b ∈ s, isFormSafe b = true) :
    formEncode s = s := by
  induction s with
  | nil => rfl
  | cons b rest ih =>
    have hb : isFormSafe b = true := h b (List.mem_cons_self b rest)
    have hb32 : b ≠ 32 := by
      intro hb32
      rw [hb32] at hb
      simp [isFormSafe] at hb
    unfold formEncode
    rw [List.flatMap_cons, if_neg hb32, if_pos hb]
    have : rest.flatMap (fun b =>
        if b = 32 then [43] else if isFormSafe b then [b] else pctEncode b) =
        formEncode rest := rfl
    rw [this, ih fun x hx => h x (List.mem_cons_of_mem b hx)]
    rfl

theorem decBytes_formSafe (n : Nat) : ∀ b ∈ decBytes n, isFormSafe b = true := by
  intro b hb
  unfold decBytes at hb
  obtain ⟨c, hc, rfl⟩ := List.mem_map.mp hb
  unfold decChars at hc
  have := decCharsAux_mem n c (List.mem_reverse.mp hc)
  fin_cases this <;> decide

/-- C6 (amended): `generateTOTPURI` produces exactly the spec's URI
shape — `otpauth://totp/`, the percent-encoded `issuer:account` label,
then `secret`, `issuer` (space as `+`), hyphen-stripped `algorithm`,
`digits` and `period` in that order — with the secret serialized through
the same form-urlencoded encoder as the other values, which leaves it
as-is exactly when all its bytes are in the encoder's safe set (as all
Base32 secrets are). -/
theorem generateTOTPURI_formEncoded (accountName issuer secret : List Nat)
    (digits period : Nat) (alg : Alg)
    (hsafe : ∀ b ∈ secret, isFormSafe b = true) :
    generateTOTPURI accountName issuer secret digits period alg =
      uriBuilderSpec accountName issuer secret digits period alg := by
  unfold generateTOTPURI uriBuilderSpec serializeQuery
  rw [formEncode_id secret hsafe,
      formEncode_id (stripHyphens (algName alg)) (by cases alg <;> decide),
      formEncode_id (decBytes digits) (decBytes_formSafe digits),
      formEncode_id (decBytes period) (decBytes_formSafe period)]
  simp [List.append_assoc]

/-- C6 counterexample: the secret is not emitted as-is for every secret —
for the secret bytes `"A&B"` the query contains `secret=A%26B`, so the
produced URI differs from the spec-worded as-is form. -/
theorem uri_secret_not_as_is :
    generateTOTPURI (asciiB "alice") (asciiB "ACME") [65, 38, 66] 6 30 .sha1 ≠
      uriBuilderSpec (asciiB "alice") (asciiB "ACME") [65, 38, 66] 6 30 .sha1 := by
  decide


/-- Witness for C1 at secret `"MFRGGZDF"`, timeStep 30, digits 6,
timestamp 59000, SHA-1, window 1. -/
theorem totp_roundtrip_witness :
    generateTOTP "MFRGGZDF".toList 30 6 59000 .sha1 =
      .ok ['5', '1', '2', '0', '7', '4'] ∧
    verifyTOTP ['5', '1', '2', '0', '7', '4'] "MFRGGZDF".toList 1 30 6 59000
      .sha1 = .ok true :=
  ⟨by decide, totp_roundtrip "MFRGGZDF".toList [97, 98, 99, 100, 101] 30 6
    59000 .sha1 1 ['5', '1', '2', '0', '7', '4'] (by decide) (by decide)
    (by decide) (by decide) (by decide)⟩

/-- Witness for C2 at a concrete 20-byte HMAC output. -/
theorem dynamic_truncation_bound_witness :
    truncOffset (List.range 20) ≤ 15 ∧ dynamicBinary (List.range 20) < 2 ^ 31 :=
  ⟨(dynamic_truncation_bound (List.range 20) (.inl (by decide))
      (by decide)).2.1,
   (dynamic_truncation_bound (List.range 20) (.inl (by decide))
      (by decide)).2.2.2⟩

/-- Witness for C3 at secret `"MFRGGZDF"` (key `"abcde"`), window 1,
timestep 30, timestamp 59000 (base counter 1). -/
theorem verifyTOTP_window_iff_witness :
    (verifyTOTP ['5', '1', '2', '0', '7', '4'] "MFRGGZDF".toList 1 30 6 59000
        .sha1 = .ok true ↔
      ∃ ew : Int, -1 ≤ ew ∧ ew ≤ 1 ∧
        hotp [97, 98, 99, 100, 101] (Int.fdiv 59000 (1000 * 30) + ew) 6 .sha1 =
          ['5', '1', '2', '0', '7', '4']) ∧
    (∀ j : Int, j ∈ examinedWindows (-1) 1 ↔ -1 ≤ j ∧ j ≤ 1) ∧
    List.Pairwise (· < ·) (examinedWindows (-1) 1) :=
  verifyTOTP_window_iff ['5', '1', '2', '0', '7', '4'] "MFRGGZDF".toList
    [97, 98, 99, 100, 101] 1 30 6 59000 .sha1 (by decide)

/-- Witness for C4 at the ASCII fragment of the uppercase mapping:
`"12345"` is rejected (the spec's own example) and `"MFRA"` decodes to
the bytes of `"ab"`. -/
theorem base32DecodeUpper_characterization_witness :
    (∃ m, base32DecodeUpper (fun c => [jsToUpper c]) "12345".toList =
      .error m) ∧
    base32DecodeUpper (fun c => [jsToUpper c]) "MFRA".toList =
      .ok [97, 98] :=
  ⟨(base32DecodeUpper_characterization (fun c => [jsToUpper c])
      "12345".toList).1.mpr ⟨'1', by decide, by decide⟩,
   by
    rw [(base32DecodeUpper_characterization (fun c => [jsToUpper c])
      "MFRA".toList).2 (by decide)]
    decide⟩

/-- Witness for C5 at key `"abcde"`, counter 1, digits 6, SHA-1. -/
theorem hotp_code_shape_witness :
    (hotp [97, 98, 99, 100, 101] 1 6 .sha1).length = 6 ∧
    ∀ c ∈ hotp [97, 98, 99, 100, 101] 1 6 .sha1, c.isDigit = true :=
  ⟨(hotp_code_shape [97, 98, 99, 100, 101] 1 6 .sha1 (by decide)).2.1,
   (hotp_code_shape [97, 98, 99, 100, 101] 1 6 .sha1 (by decide)).2.2⟩

/-- Witness for C6 at the Base32 secret `"MF"` (all bytes form-safe). -/
theorem generateTOTPURI_formEncoded_witness :
    (∀ b ∈ [77, 70], isFormSafe b = true) ∧
    generateTOTPURI (asciiB "alice") (asciiB "ACME") [77, 70] 6 30 .sha1 =
      uriBuilderSpec (asciiB "alice") (asciiB "ACME") [77, 70] 6 30 .sha1 :=
  ⟨by decide,
   generateTOTPURI_formEncoded (asciiB "alice") (asciiB "ACME") [77, 70] 6 30
     .sha1 (by decide)⟩

/-- Witness for C7's amended statement at secret `"MFRGGZDF"`,
timeStep −30 and window −2. -/
theorem totp_no_parameter_validation_witness :
    generateTOTP "MFRGGZDF".toList (-30) 6 45000 .sha1 =
      .ok (hotp [97, 98, 99, 100, 101] (Int.fdiv 45000 (1000 * -30)) 6
        .sha1) ∧
    verifyTOTP ['0', '0', '0', '0', '0', '0'] "MFRGGZDF".toList (-2) (-30) 6
        45000 .sha1 =
      .ok (verifyLoop [97, 98, 99, 100, 101] ['0', '0', '0', '0', '0', '0'] 6
        .sha1 (Int.fdiv 45000 (1000 * -30)) (-(-2)) (-2)) :=
  totp_no_parameter_validation "MFRGGZDF".toList [97, 98, 99, 100, 101] (-30)
    6 45000 .sha1 (-2) ['0', '0', '0', '0', '0', '0'] (by decide) (by decide)

/-- Witness for C9 at window −1. -/
theorem verifyTOTP_negative_window_witness :
    verifyTOTP ['0', '0', '0', '0', '0', '0'] "MFRGGZDF".toList (-1) 30 6
        59000 .sha1 = .ok false ∧
    examinedWindows (-(-1)) (-1) = [] :=
  verifyTOTP_negative_window ['0', '0', '0', '0', '0', '0']
    "MFRGGZDF".toList [97, 98, 99, 100, 101] (-1) 30 6 59000 .sha1
    (by decide) (by decide)
